import Mathlib

/-!
# Verification of the CurrencyExchangeBot rates cache and fuzzy resolver

Shallow embedding of `extensions.py` from the CurrencyExchangeBot repository:
the `RatesStorage` day-keyed cache (refresh, read view, exact and fuzzy
currency lookup) and the `API.get_price` conversion handler.

Modelling conventions:
* Python dict records become the structure `CurrencyRecord`; numeric rates
  (Python floats) are modelled as rationals.
* `Levenshtein.distance` from the Python `Levenshtein` library is the classic
  unit-cost edit distance; it is modelled by Mathlib's `levenshtein` with
  `Levenshtein.defaultCost`.
* `str.lower` is modelled on the alphabet the program actually handles
  (ASCII plus the Cyrillic range used by the feed).
* Fallible operations (`None` returns, raised exceptions, the out-of-range
  list index in `get_currency_data`) are explicit constructors.
* Network fetches and XML parsing happen outside the core: the outcome of
  each fetch (success with parsed payload, transport failure, parse failure)
  is passed in as data, exactly at the granularity the code distinguishes.
-/

namespace CurrencyBot

/-- One currency record, as built by `RatesStorage.fill`
(Python dict with keys `code`, `rus_name`, `eng_name`, `rub_rate`). -/
structure CurrencyRecord where
  code : String
  rus_name : String
  eng_name : String
  rub_rate : ℚ
deriving DecidableEq, Repr

/-- Python `str.lower` on a single character, restricted to the alphabet the
program handles: ASCII `A`-`Z` and Cyrillic `А`-`Я`, `Ё`. -/
def pyLowerChar (c : Char) : Char :=
  if 'A' ≤ c ∧ c ≤ 'Z' then Char.ofNat (c.toNat + 32)
  else if 'А' ≤ c ∧ c ≤ 'Я' then Char.ofNat (c.toNat + 32)
  else if c = 'Ё' then 'ё'
  else c

/-- Python `str.lower`, character by character. -/
def pyLower (s : String) : String := ⟨s.data.map pyLowerChar⟩

/-- Model of `Levenshtein.distance` from the Python `Levenshtein` library:
classic edit distance with unit costs for insert, delete and substitute. -/
def levDist (a b : String) : ℕ :=
  levenshtein Levenshtein.defaultCost a.data b.data

/-- Source `RatesStorage.find_currency_by_code`: filter the snapshot by
`currency["code"] == code` (case-sensitive `==`) and take element `[0]`,
`None` when the filtered list is empty. -/
def find_currency_by_code (recs : List CurrencyRecord) (code : String) :
    Option CurrencyRecord :=
  (recs.filter (fun currency => currency.code = code)).head?

/-- The comparator of `RatesStorage.get_currency_data`: case-insensitive
equality of the request against `code`, `rus_name` or `eng_name`. -/
def equality_comparator (currency : CurrencyRecord) (request : String) : Bool :=
  pyLower currency.code = pyLower request ||
    pyLower currency.rus_name = pyLower request ||
      pyLower currency.eng_name = pyLower request

/-- Outcome of `RatesStorage.get_currency_data`: a record, Python `None`,
or the uncaught `IndexError` raised by `lev_distances[0]` on an empty list. -/
inductive ResolveResult where
  | found (r : CurrencyRecord)
  | notFound
  | indexError
deriving DecidableEq, Repr

/-- Stable insertion placing `x` before the first strictly greater key:
auxiliary step of `pySortByDistance`. -/
def pyInsertByDistance (x : String × ℕ) :
    List (String × ℕ) → List (String × ℕ)
  | [] => [x]
  | y :: ys => if x.2 ≤ y.2 then x :: y :: ys else y :: pyInsertByDistance x ys

/-- Python's stable `list.sort(key=lambda x: x["distance"])` on the
`lev_distances` list of `(code, distance)` pairs. -/
def pySortByDistance : List (String × ℕ) → List (String × ℕ)
  | [] => []
  | x :: xs => pyInsertByDistance x (pySortByDistance xs)

/-- Source `RatesStorage.get_currency_data`: exact (case-insensitive) match against
code and both names first; otherwise build the `(code, min distance)` list,
stable-sort it by distance, and look at entry `[0]`: below-threshold
(`<= 3`) distances resolve through `find_currency_by_code`, larger ones give
`None`; on an empty snapshot `lev_distances[0]` raises `IndexError`. -/
def get_currency_data (recs : List CurrencyRecord) (request : String) :
    ResolveResult :=
  match (recs.filter (fun currency => equality_comparator currency request)).head? with
  | some r => .found r
  | none =>
    let lev_distances := recs.map (fun currency =>
      (currency.code,
        min (levDist (pyLower currency.rus_name) (pyLower request))
            (levDist (pyLower currency.eng_name) (pyLower request))))
    match (pySortByDistance lev_distances).head? with
    | none => .indexError
    | some best =>
      if best.2 ≤ 3 then
        match find_currency_by_code recs best.1 with
        | some r => .found r
        | none => .notFound
      else .notFound

/-! ## Specification-side definitions for the fuzzy stage -/

/-- The per-record minimum distance of the spec's fuzzy stage: minimum of the
case-insensitive Levenshtein distances from the query to `rusName` and to
`engName`. -/
def recMinDist (currency : CurrencyRecord) (request : String) : ℕ :=
  min (levDist (pyLower currency.rus_name) (pyLower request))
      (levDist (pyLower currency.eng_name) (pyLower request))

/-- Minimum of a list of naturals (`0` on the empty list, which is never
used below). -/
def minNat : List ℕ → ℕ
  | [] => 0
  | [d] => d
  | d :: d₂ :: ds => min d (minNat (d₂ :: ds))

/-- The fuzzy stage as the spec words it: compute each record's minimum
distance, take the record with the globally smallest one (first in snapshot
order on ties), and fail when that smallest distance exceeds 3. -/
def specResolveFuzzy (recs : List CurrencyRecord) (request : String) :
    Option CurrencyRecord :=
  match recs with
  | [] => none
  | _ :: _ =>
    let m := minNat (recs.map (fun currency => recMinDist currency request))
    if m ≤ 3 then recs.find? (fun currency => recMinDist currency request = m)
    else none

/-! ## Conversion service (`API.get_price`) -/

/-- Floor of a rational, computed as floor division of numerator by
denominator. -/
def ratFloor (x : ℚ) : ℤ := Int.fdiv x.num x.den

/-- Python's built-in `round(x, 2)`: round to 2 decimal places, ties to the
even hundredth (banker's rounding). -/
def pyRound2 (q : ℚ) : ℚ :=
  let x := q * 100
  let f := ratFloor x
  let r := x - (f : ℚ)
  let n := if r < 1 / 2 then f
           else if 1 / 2 < r then f + 1
           else if f % 2 = 0 then f else f + 1
  (n : ℚ) / 100

/-- Outcome of `API.get_price`, one constructor per distinct
`APIException` message plus the successful conversion and the `IndexError`
that an empty snapshot makes `get_currency_data` raise. -/
inductive PriceResult where
  | ok (value : ℚ) (base quote : CurrencyRecord)
  | invalidAmountFormat
  | nonPositiveAmount
  | unknownBase (query : String)
  | unknownQuote (query : String)
  | sameCurrency
  | indexErrorCrash
deriving DecidableEq, Repr

/-- Source `API.get_price` over a fixed snapshot. `amountParsed` is the outcome of
the Python built-in `float(amount)`: `none` when it raises `ValueError`.
The checks run in source order: amount format, positivity, resolution of
`base` then `quote`, distinct codes, then
`round(base_rate / quote_rate * amount, 2)`. -/
def get_price (recs : List CurrencyRecord) (amountParsed : Option ℚ)
    (base quote : String) : PriceResult :=
  match amountParsed with
  | none => .invalidAmountFormat
  | some amount =>
    if amount ≤ 0 then .nonPositiveAmount
    else
      match get_currency_data recs base with
      | .indexError => .indexErrorCrash
      | .notFound => .unknownBase base
      | .found base_data =>
        match get_currency_data recs quote with
        | .indexError => .indexErrorCrash
        | .notFound => .unknownQuote quote
        | .found quote_data =>
          if base_data.code = quote_data.code then .sameCurrency
          else
            .ok (pyRound2 (base_data.rub_rate / quote_data.rub_rate * amount))
              base_data quote_data

/-! ## The day-keyed cache (`RatesStorage` state, `fill`, the `data` view) -/

/-- The mutable state of a `RatesStorage` instance:
`_data_write_only`, `_data_read_only`, `_cached_date`. -/
structure StorageState where
  write_only : List CurrencyRecord
  read_only : List CurrencyRecord
  cached_date : Option String
deriving DecidableEq, Repr

/-- The record `fill` appends after all fetched records
(the synthetic reference-currency entry). -/
def rurRecord : CurrencyRecord :=
  ⟨"RUR", "Российский рубль", "Russian Ruble", 1⟩

/-- Outcome of `RatesStorage.get_vocabulary`: the id-to-names dictionary on
success, or the transport / parse `APIException` it raises. -/
inductive VocResult where
  | ok (voc : String → Option (String × String))
  | fetchFail
  | parseFail

/-- One `Valute` element of the daily-rates XML as `fill` reads it:
`ID` attribute, `CharCode` text, and the `VunitRate` text after the
comma-to-dot substitution (`none` when `float` would raise on it). -/
structure RateItem where
  id : String
  charCode : String
  vunitRate : Option ℚ
deriving DecidableEq, Repr

/-- Outcome of fetching and parsing the daily-rates document: the `Valute`
items on success, or the transport / top-level parse failure. -/
inductive RatesResult where
  | ok (items : List RateItem)
  | fetchFail
  | parseFail

/-- The four `APIException` kinds `fill` can raise, in source order:
vocabulary fetch, vocabulary parse, rates fetch, rates parse (the last also
covers the per-item `KeyError` / `ValueError` caught by the generic
`except Exception`). -/
inductive ApiErr where
  | vocFetch
  | vocParse
  | ratesFetch
  | ratesParse
deriving DecidableEq, Repr

/-- The merge loop of `fill`: for each `Valute` item, look its id up in the
vocabulary (`KeyError` stops the loop) and parse its rate (`ValueError`
stops the loop), appending the merged record. Returns the records appended
so far and whether the loop finished. -/
def mergeItems (voc : String → Option (String × String)) :
    List RateItem → List CurrencyRecord → List CurrencyRecord × Bool
  | [], acc => (acc, true)
  | item :: rest, acc =>
    match voc item.id with
    | none => (acc, false)
    | some names =>
      match item.vunitRate with
      | none => (acc, false)
      | some rate =>
        mergeItems voc rest (acc ++ [⟨item.charCode, names.1, names.2, rate⟩])

/-- Source `RatesStorage.fill`: `reset()`, set `_cached_date` to today, fetch the
vocabulary, fetch and merge today's rates, append the synthetic `RUR`
record, and deep-copy the result into `_data_read_only`. Any failure leaves
the state as built so far (date already set, read-only list still empty)
and raises the corresponding `APIException`. -/
def fill (today : String) (voc : VocResult) (rates : RatesResult)
    (_s : StorageState) : StorageState × Option ApiErr :=
  let base : StorageState := ⟨[], [], some today⟩
  match voc with
  | .fetchFail => (base, some .vocFetch)
  | .parseFail => (base, some .vocParse)
  | .ok vocab =>
    match rates with
    | .fetchFail => (base, some .ratesFetch)
    | .parseFail => (base, some .ratesParse)
    | .ok items =>
      match mergeItems vocab items [] with
      | (merged, true) =>
        let recs := merged ++ [rurRecord]
        (⟨recs, recs, some today⟩, none)
      | (merged, false) => ({ base with write_only := merged }, some .ratesParse)

/-- The `lists_match` helper inside the `data` property: equal lengths and
pairwise equal elements (the `type(x) == type(y)` check is vacuous here,
every element being a record). -/
def lists_match (l1 l2 : List CurrencyRecord) : Bool :=
  l1.length == l2.length && (l1.zip l2).all (fun p => decide (p.1 = p.2))

/-- What a call of the `data` property yields: a snapshot, or the
`APIException` a failed refresh raises through it. -/
inductive DataResult where
  | ok (snapshot : List CurrencyRecord)
  | err (e : ApiErr)
deriving DecidableEq, Repr

/-- The `data` property: refresh via `fill` when the cached date differs
from today (a raised `APIException` propagates to the caller), then repair
`_data_read_only` by deep copy when it no longer matches
`_data_write_only`, and return `_data_read_only`. The boolean records
whether `fill` was invoked. -/
def dataOp (today : String) (voc : VocResult) (rates : RatesResult)
    (s : StorageState) : DataResult × StorageState × Bool :=
  if s.cached_date = some today then
    let s1 := if lists_match s.write_only s.read_only then s
              else { s with read_only := s.write_only }
    (.ok s1.read_only, s1, false)
  else
    match fill today voc rates s with
    | (s1, some e) => (.err e, s1, true)
    | (s1, none) =>
      let s2 := if lists_match s1.write_only s1.read_only then s1
                else { s1 with read_only := s1.write_only }
      (.ok s2.read_only, s2, true)

/-! ## Heap-level model of the read view

The ownership claim is about Python aliasing: `data` returns the
`_data_read_only` list object itself, whose record dicts are `deepcopy`s of
the internally owned `_data_write_only` dicts, rebuilt whenever the two no
longer match. To state it we model the record dicts as heap cells: an
address is an index into a heap, the storage keeps address lists, and
`deepcopy` allocates fresh cells. -/

/-- A heap cell address (index into the heap). -/
abbrev Addr := ℕ

/-- The heap of record objects; `List.getD`/`List.set` are the reads and
writes at an address. -/
abbrev Heap := List CurrencyRecord

/-- Placeholder record for out-of-range reads (never hit on valid states). -/
def defaultRec : CurrencyRecord := ⟨"", "", "", 0⟩

/-- The record values a list of addresses points at. -/
def contentsAt (h : Heap) (addrs : List Addr) : List CurrencyRecord :=
  addrs.map (fun a => h.getD a defaultRec)

/-- Store the given record values in freshly allocated cells, returning the
grown heap and the fresh addresses. -/
def allocRecords (h : Heap) (recs : List CurrencyRecord) : Heap × List Addr :=
  (h ++ recs, List.range' h.length recs.length)

/-- Model of `copy.deepcopy` of a list of record objects: fresh cells holding copies
of the pointed-at values. -/
def deepcopyAddrs (h : Heap) (src : List Addr) : Heap × List Addr :=
  allocRecords h (contentsAt h src)

/-- State of `RatesStorage` at the heap level: the two lists hold addresses of
record objects. -/
structure HeapStorage where
  write_only : List Addr
  read_only : List Addr
  cached_date : Option String
deriving DecidableEq, Repr

/-- A successful `fill` at the heap level: the merged records go into fresh
cells of `_data_write_only`, and `_data_read_only` becomes their
`deepcopy` (line 197 of the source). -/
def hFill (today : String) (recs : List CurrencyRecord) (h : Heap) :
    HeapStorage × Heap :=
  let (h1, was) := allocRecords h recs
  let (h2, ras) := deepcopyAddrs h1 was
  (⟨was, ras, some today⟩, h2)

/-- The tail of the `data` property at the heap level: when the two lists'
contents no longer match, rebuild `_data_read_only` as a fresh `deepcopy`
of `_data_write_only`; return the `_data_read_only` addresses (the caller
gets the very objects the storage keeps there). -/
def hServe (s : HeapStorage) (h : Heap) : List Addr × HeapStorage × Heap :=
  if lists_match (contentsAt h s.write_only) (contentsAt h s.read_only) then
    (s.read_only, s, h)
  else
    let (h2, ras) := deepcopyAddrs h s.write_only
    (ras, { s with read_only := ras }, h2)

/-- The `data` property at the heap level: refresh when stale (successful
refresh shown; a failed one serves nothing), then serve the read view. -/
def hDataOp (today : String) (recs : List CurrencyRecord) (s : HeapStorage)
    (h : Heap) : List Addr × HeapStorage × Heap :=
  if s.cached_date = some today then hServe s h
  else
    let (s1, h1) := hFill today recs h
    hServe s1 h1

/-- A caller mutating the snapshot it received: any sequence of record
overwrites at addresses of its choosing. -/
def mutateHeap (h : Heap) (writes : List (Addr × CurrencyRecord)) : Heap :=
  writes.foldl (fun acc w => acc.set w.1 w.2) h

/-- Well-formedness the storage maintains: internally owned addresses are
live, and the published read-only list never aliases them. -/
def heapWF (s : HeapStorage) (h : Heap) : Prop :=
  (∀ a ∈ s.write_only, a < h.length) ∧ s.write_only.Disjoint s.read_only

/-! ## Concrete data for witnesses -/

/-- A dollar record as `fill` would merge it (rate 90 over the reference
currency). -/
def usdRecord : CurrencyRecord := ⟨"USD", "Доллар США", "US Dollar", 90⟩

/-- A euro record as `fill` would merge it (rate 100 over the reference
currency). -/
def eurRecord : CurrencyRecord := ⟨"EUR", "Евро", "Euro", 100⟩

/-- A snapshot over which the conversion test case runs. -/
def demoSnapshot : List CurrencyRecord := [usdRecord, eurRecord]

/-- Records with short names, for exercising the fuzzy stage. -/
def shortNameRecs : List CurrencyRecord :=
  [⟨"USD", "AB", "CD", 90⟩, ⟨"EUR", "ABX", "CD", 100⟩]

/-- A vocabulary with a single known id. -/
def demoVocab : String → Option (String × String) :=
  fun id => if id = "R01235" then some ("Доллар США", "US Dollar") else none

/-- A rates feed whose single item is covered by `demoVocab`. -/
def demoItems : List RateItem := [⟨"R01235", "USD", some 90⟩]

/-- A rates feed whose second item's id is missing from `demoVocab`, so the
merge loop of `fill` dies mid-way with a `KeyError`. -/
def brokenFeedItems : List RateItem :=
  [⟨"R01235", "USD", some 90⟩, ⟨"R01239", "EUR", some 100⟩]

/-! ## Helper lemmas -/

/-- Taking element `[0]` of a filtered list is `find?`. -/
theorem head?_filter_eq_find? (p : α → Bool) (l : List α) :
    (l.filter p).head? = l.find? p := by
  induction l with
  | nil => rfl
  | cons x xs ih =>
    by_cases h : p x <;> simp [List.filter_cons, List.find?_cons, h, ih]

theorem lists_match_refl (l : List CurrencyRecord) : lists_match l l = true := by
  induction l with
  | nil => rfl
  | cons x xs ih =>
    simp only [lists_match, List.zip_cons_cons, List.all_cons] at ih ⊢
    simpa using ih

theorem lists_match_iff (l1 l2 : List CurrencyRecord) :
    lists_match l1 l2 = true ↔ l1 = l2 := by
  constructor
  · intro h
    induction l1 generalizing l2 with
    | nil =>
      cases l2 with
      | nil => rfl
      | cons y ys => simp [lists_match] at h
    | cons x xs ih =>
      cases l2 with
      | nil => simp [lists_match] at h
      | cons y ys =>
        simp only [lists_match, List.length_cons, List.zip_cons_cons,
          List.all_cons, Bool.and_eq_true, decide_eq_true_eq,
          beq_iff_eq, Nat.add_right_cancel_iff] at h
        obtain ⟨h1, h2, h3⟩ := h
        have := ih ys (by simp [lists_match, h1, h3])
        simp [h2, this]
  · rintro rfl; exact lists_match_refl l1

theorem minNat_cons (d : ℕ) (ds : List ℕ) (h : ds ≠ []) :
    minNat (d :: ds) = min d (minNat ds) := by
  cases ds with
  | nil => exact absurd rfl h
  | cons e es => rfl

theorem minNat_le {ds : List ℕ} {d : ℕ} (h : d ∈ ds) : minNat ds ≤ d := by
  induction ds with
  | nil => cases h
  | cons e es ih =>
    cases es with
    | nil =>
      rcases List.mem_singleton.mp h with rfl
      exact le_refl _
    | cons f fs =>
      rw [minNat_cons _ _ (by simp)]
      rcases List.mem_cons.mp h with rfl | h'
      · exact min_le_left _ _
      · exact le_trans (min_le_right _ _) (ih h')

theorem minNat_mem {ds : List ℕ} (h : ds ≠ []) : minNat ds ∈ ds := by
  induction ds with
  | nil => exact absurd rfl h
  | cons e es ih =>
    cases es with
    | nil => simp [minNat]
    | cons f fs =>
      rw [minNat_cons _ _ (by simp)]
      rcases le_total e (minNat (f :: fs)) with h' | h'
      · simp [min_eq_left h']
      · rw [min_eq_right h']
        exact List.mem_cons_of_mem _ (ih (by simp))

theorem pyInsertByDistance_head (x z : String × ℕ) (l : List (String × ℕ))
    (h : l.head? = some z) :
    (pyInsertByDistance x l).head? = some (if x.2 ≤ z.2 then x else z) := by
  cases l with
  | nil => simp at h
  | cons w ws =>
    simp only [List.head?_cons, Option.some.injEq] at h
    subst h
    simp only [pyInsertByDistance]
    split <;> simp

/-- The head of the stable sort is the first pair attaining the minimal
distance. -/
theorem pySortByDistance_head (l : List (String × ℕ)) (h : l ≠ []) :
    (pySortByDistance l).head? =
      l.find? (fun p => p.2 = minNat (l.map Prod.snd)) := by
  induction l with
  | nil => exact absurd rfl h
  | cons x xs ih =>
    cases xs with
    | nil =>
      simp [pySortByDistance, pyInsertByDistance, minNat, List.find?]
    | cons y ys =>
      have hne : (y :: ys) ≠ [] := by simp
      have IH := ih hne
      have hmem : minNat ((y :: ys).map Prod.snd) ∈ (y :: ys).map Prod.snd :=
        minNat_mem (by simp)
      obtain ⟨z, hz, hz2⟩ := List.mem_map.mp hmem
      have hfind : ((y :: ys).find?
          (fun p => p.2 = minNat ((y :: ys).map Prod.snd))).isSome := by
        rw [List.find?_isSome]
        exact ⟨z, hz, by simp [hz2]⟩
      obtain ⟨z₀, hz₀⟩ := Option.isSome_iff_exists.mp hfind
      have hz₀2 : z₀.2 = minNat ((y :: ys).map Prod.snd) := by
        have := List.find?_some hz₀
        simpa using this
      have hmap : (x :: y :: ys).map Prod.snd = x.2 :: (y :: ys).map Prod.snd := rfl
      have hmin : minNat ((x :: y :: ys).map Prod.snd) =
          min x.2 (minNat ((y :: ys).map Prod.snd)) := by
        rw [hmap, minNat_cons _ _ (by simp)]
      have hhead : (pySortByDistance (y :: ys)).head? = some z₀ := IH.trans hz₀
      have hLHS : (pySortByDistance (x :: y :: ys)).head? =
          some (if x.2 ≤ z₀.2 then x else z₀) := by
        simp only [pySortByDistance]
        exact pyInsertByDistance_head x z₀ _ hhead
      rcases le_total x.2 (minNat ((y :: ys).map Prod.snd)) with hc | hc
      · have hminx : minNat ((x :: y :: ys).map Prod.snd) = x.2 := by
          rw [hmin]; exact min_eq_left hc
        have hle : x.2 ≤ z₀.2 := hz₀2 ▸ hc
        rw [hLHS, hminx, List.find?_cons]
        simp [hle]
      · by_cases hx : x.2 = minNat ((y :: ys).map Prod.snd)
        · have hminx : minNat ((x :: y :: ys).map Prod.snd) = x.2 := by
            rw [hmin, hx, min_self]
          have hle : x.2 ≤ z₀.2 := by rw [hz₀2, ← hx]
          rw [hLHS, hminx, List.find?_cons]
          simp [hle]
        · have hminx : minNat ((x :: y :: ys).map Prod.snd) =
              minNat ((y :: ys).map Prod.snd) := by
            rw [hmin]; exact min_eq_right hc
          have hlt : z₀.2 < x.2 := by
            rw [hz₀2]; exact lt_of_le_of_ne hc (Ne.symm hx)
          rw [hLHS, hminx, List.find?_cons]
          simp only [List.map_cons] at hx hz₀
          simp [not_le_of_lt hlt, hx, hz₀]

/-- With no exact match, `get_currency_data` reduces to the fuzzy stage over
the `(code, min distance)` list. -/
theorem get_currency_data_fuzzy_eq (recs : List CurrencyRecord) (request : String)
    (h : recs.filter (fun currency => equality_comparator currency request) = []) :
    get_currency_data recs request =
      match (pySortByDistance (recs.map (fun currency =>
          (currency.code, recMinDist currency request)))).head? with
      | none => ResolveResult.indexError
      | some best =>
        if best.2 ≤ 3 then
          match find_currency_by_code recs best.1 with
          | some r => ResolveResult.found r
          | none => ResolveResult.notFound
        else ResolveResult.notFound := by
  simp only [get_currency_data, recMinDist]
  rw [h]
  rfl

/-- With distinct codes, `find_currency_by_code` at a member's code returns
that member. -/
theorem find_currency_by_code_of_mem (recs : List CurrencyRecord)
    (hcodes : (recs.map CurrencyRecord.code).Nodup) (c₀ : CurrencyRecord)
    (hc₀mem : c₀ ∈ recs) : find_currency_by_code recs c₀.code = some c₀ := by
  simp only [find_currency_by_code]
  rw [head?_filter_eq_find?]
  have hsome : (recs.find? (fun currency => decide (currency.code = c₀.code))).isSome := by
    rw [List.find?_isSome]
    exact ⟨c₀, hc₀mem, by simp⟩
  obtain ⟨c₂, hc₂⟩ := Option.isSome_iff_exists.mp hsome
  have hcode : c₂.code = c₀.code := by simpa using List.find?_some hc₂
  have hc₂mem := List.mem_of_find?_eq_some hc₂
  have heq : c₂ = c₀ := List.inj_on_of_nodup_map hcodes hc₂mem hc₀mem hcode
  rw [hc₂, heq]

/-- C1: for every snapshot (with the invariant of pairwise-distinct codes)
and every query with no exact match, `resolve` computes for each record the
case-insensitive Levenshtein distance of the query to `rus_name` and to
`eng_name`, takes the per-record minimum, and returns the record with the
globally smallest minimum distance, ties broken by snapshot order (first
record wins); if that smallest minimum distance exceeds 3, it returns
not-found. Stated as agreement with the spec-side `specResolveFuzzy`. -/
theorem c1_fuzzy_resolution (recs : List CurrencyRecord) (request : String)
    (hexact : ∀ c ∈ recs, equality_comparator c request = false)
    (hcodes : (recs.map CurrencyRecord.code).Nodup)
    (hne : recs ≠ []) :
    get_currency_data recs request =
      match specResolveFuzzy recs request with
      | some r => ResolveResult.found r
      | none => ResolveResult.notFound := by
  cases recs with
  | nil => exact absurd rfl hne
  | cons a l =>
  have hfilter : (a :: l).filter (fun currency => equality_comparator currency request) = [] :=
    List.filter_eq_nil_iff.mpr (by intro c hc; simp [hexact c hc])
  have hmapne : (a :: l).map (fun c => recMinDist c request) ≠ [] := by simp
  have hmmem : minNat ((a :: l).map (fun c => recMinDist c request)) ∈
      (a :: l).map (fun c => recMinDist c request) := minNat_mem hmapne
  obtain ⟨c₁, hc₁, hc₁m⟩ := List.mem_map.mp hmmem
  have hfindsome : ((a :: l).find? (fun c =>
      recMinDist c request = minNat ((a :: l).map (fun c => recMinDist c request)))).isSome := by
    rw [List.find?_isSome]
    exact ⟨c₁, hc₁, by simp [hc₁m]⟩
  obtain ⟨c₀, hc₀⟩ := Option.isSome_iff_exists.mp hfindsome
  have hc₀m : recMinDist c₀ request =
      minNat ((a :: l).map (fun c => recMinDist c request)) := by
    simpa using List.find?_some hc₀
  have hc₀mem : c₀ ∈ a :: l := List.mem_of_find?_eq_some hc₀
  have hsort := pySortByDistance_head
      ((a :: l).map (fun currency => (currency.code, recMinDist currency request)))
      (by simp)
  rw [List.map_map] at hsort
  simp only [Function.comp_def] at hsort
  rw [List.find?_map] at hsort
  simp only [Function.comp_def] at hsort
  rw [hc₀] at hsort
  simp only [Option.map_some'] at hsort
  rw [get_currency_data_fuzzy_eq (a :: l) request hfilter, hsort]
  have hfcbc := find_currency_by_code_of_mem (a :: l) hcodes c₀ hc₀mem
  by_cases hm3 : minNat ((a :: l).map (fun c => recMinDist c request)) ≤ 3
  · simp only [specResolveFuzzy, hc₀m, hm3, if_true, hc₀, hfcbc]
  · simp only [List.map_cons] at hm3
    simp [specResolveFuzzy, hc₀m, hm3]

/-- Witness for C1: on a concrete snapshot with no exact match the theorem
applies; the spec-side resolver picks the first of the two distance-1
records (tie broken by snapshot order), and a too-distant query gives
not-found. -/
theorem c1_witness :
    (get_currency_data shortNameRecs "ABQ" =
      match specResolveFuzzy shortNameRecs "ABQ" with
      | some r => ResolveResult.found r
      | none => ResolveResult.notFound) ∧
    (get_currency_data shortNameRecs "QQQQQQQQ" =
      match specResolveFuzzy shortNameRecs "QQQQQQQQ" with
      | some r => ResolveResult.found r
      | none => ResolveResult.notFound) ∧
    specResolveFuzzy shortNameRecs "ABQ" = some ⟨"USD", "AB", "CD", 90⟩ ∧
    specResolveFuzzy shortNameRecs "QQQQQQQQ" = none :=
  ⟨c1_fuzzy_resolution shortNameRecs "ABQ" (by decide) (by decide) (by decide),
   c1_fuzzy_resolution shortNameRecs "QQQQQQQQ" (by decide) (by decide) (by decide),
   by decide, by decide⟩

/-- C2: `resolve` first performs a case-insensitive exact match of the query
against `code`, `rus_name` and `eng_name` across all records, returning the
first matching record in snapshot order when several match; and whenever the
query equals some record's code case-insensitively, the result is that first
exact match — no Levenshtein distance is involved, so the fuzzy stage runs
only when no exact match exists. -/
theorem c2_exact_match (recs : List CurrencyRecord) (request : String) :
    (∀ c, recs.find? (fun currency => equality_comparator currency request) = some c →
        get_currency_data recs request = ResolveResult.found c) ∧
    ((∃ c ∈ recs, pyLower c.code = pyLower request) →
        ∃ c, recs.find? (fun currency => equality_comparator currency request) = some c ∧
          get_currency_data recs request = ResolveResult.found c) := by
  have part1 : ∀ c,
      recs.find? (fun currency => equality_comparator currency request) = some c →
      get_currency_data recs request = ResolveResult.found c := by
    intro c hc
    simp only [get_currency_data]
    rw [head?_filter_eq_find?, hc]
  refine ⟨part1, ?_⟩
  rintro ⟨c, hcmem, hcode⟩
  have hsome : (recs.find? (fun currency => equality_comparator currency request)).isSome := by
    rw [List.find?_isSome]
    refine ⟨c, hcmem, ?_⟩
    simp [equality_comparator, hcode]
  obtain ⟨c₀, hc₀⟩ := Option.isSome_iff_exists.mp hsome
  exact ⟨c₀, hc₀, part1 c₀ hc₀⟩

/-- Witness for C2: a lower-case code query and an upper-case name query both
resolve to the exact-matching record on a concrete snapshot. -/
theorem c2_witness :
    get_currency_data demoSnapshot "usd" = ResolveResult.found usdRecord ∧
    get_currency_data demoSnapshot "EURO" = ResolveResult.found eurRecord :=
  ⟨(c2_exact_match demoSnapshot "usd").1 usdRecord (by decide),
   (c2_exact_match demoSnapshot "EURO").1 eurRecord (by decide)⟩

/-- Counterexample to C4: `find_currency_by_code` is case-sensitive. The
snapshot holds a record whose code equals `"usd"` ignoring case, yet the
lookup returns `None`. -/
theorem c4_counterexample :
    usdRecord ∈ demoSnapshot ∧
    pyLower usdRecord.code = pyLower "usd" ∧
    find_currency_by_code demoSnapshot "usd" = none := by decide

/-- C4 (amended): `findByCode` performs a case-sensitive exact match on the
code field: any returned record is in the snapshot with code equal to the
argument (same case), such a record is returned whenever one exists, and
not-found is returned exactly when no record's code equals the argument. -/
theorem c4_find_by_code_case_sensitive (recs : List CurrencyRecord) (code : String) :
    (∀ r, find_currency_by_code recs code = some r → r ∈ recs ∧ r.code = code) ∧
    ((∃ r ∈ recs, r.code = code) →
      ∃ r, find_currency_by_code recs code = some r ∧ r.code = code) ∧
    (find_currency_by_code recs code = none → ∀ r ∈ recs, r.code ≠ code) := by
  simp only [find_currency_by_code, head?_filter_eq_find?]
  refine ⟨?_, ?_, ?_⟩
  · intro r hr
    exact ⟨List.mem_of_find?_eq_some hr, by simpa using List.find?_some hr⟩
  · rintro ⟨r, hrmem, hrcode⟩
    have hsome : (recs.find? (fun currency => decide (currency.code = code))).isSome := by
      rw [List.find?_isSome]
      exact ⟨r, hrmem, by simp [hrcode]⟩
    obtain ⟨r₀, hr₀⟩ := Option.isSome_iff_exists.mp hsome
    exact ⟨r₀, hr₀, by simpa using List.find?_some hr₀⟩
  · intro hnone r hrmem hrcode
    rw [List.find?_eq_none] at hnone
    have := hnone r hrmem
    simp [hrcode] at this

/-- Witness for C4 (amended): the exact-case lookup of `"USD"` returns the
dollar record on a concrete snapshot. -/
theorem c4_witness : usdRecord ∈ demoSnapshot ∧ usdRecord.code = "USD" :=
  (c4_find_by_code_case_sensitive demoSnapshot "USD").1 usdRecord (by decide)

/-- C5: `get_price` fails with `InvalidAmountFormat` exactly when the amount
text does not parse as a float; when it parses, the amount must be strictly
positive, failing with `NonPositiveAmount` otherwise; and when both
resolutions succeed (and the amount checks pass), it fails with
`SameCurrency` exactly when target and source resolved to equal codes. -/
theorem c5_conversion_validation (recs : List CurrencyRecord)
    (amountParsed : Option ℚ) (base quote : String) :
    (get_price recs amountParsed base quote = PriceResult.invalidAmountFormat ↔
      amountParsed = none) ∧
    (∀ a, amountParsed = some a →
      (get_price recs amountParsed base quote = PriceResult.nonPositiveAmount ↔
        a ≤ 0)) ∧
    (∀ a b q, amountParsed = some a → 0 < a →
      get_currency_data recs base = ResolveResult.found b →
      get_currency_data recs quote = ResolveResult.found q →
      (get_price recs amountParsed base quote = PriceResult.sameCurrency ↔
        b.code = q.code)) := by
  refine ⟨?_, ?_, ?_⟩
  · constructor
    · intro h
      cases amountParsed with
      | none => rfl
      | some a =>
        exfalso
        simp only [get_price] at h
        split at h
        · exact PriceResult.noConfusion h
        · split at h
          · exact PriceResult.noConfusion h
          · exact PriceResult.noConfusion h
          · split at h
            · exact PriceResult.noConfusion h
            · exact PriceResult.noConfusion h
            · split at h
              · exact PriceResult.noConfusion h
              · exact PriceResult.noConfusion h
    · rintro rfl; rfl
  · rintro a rfl
    simp only [get_price]
    by_cases ha : a ≤ 0
    · simp [ha]
    · rw [if_neg ha]
      simp only [ha, iff_false]
      intro h
      split at h
      · exact PriceResult.noConfusion h
      · exact PriceResult.noConfusion h
      · split at h
        · exact PriceResult.noConfusion h
        · exact PriceResult.noConfusion h
        · split at h
          · exact PriceResult.noConfusion h
          · exact PriceResult.noConfusion h
  · rintro a b q rfl ha hb hq
    simp only [get_price, if_neg (not_le.mpr ha), hb, hq]
    by_cases hc : b.code = q.code
    · simp [hc]
    · simp [hc]

/-- Witness for C5: on a concrete snapshot, an unparseable amount gives
`InvalidAmountFormat`, a negative amount gives `NonPositiveAmount`, and
converting USD to USD gives `SameCurrency`. -/
theorem c5_witness :
    get_price demoSnapshot none "USD" "EUR" = PriceResult.invalidAmountFormat ∧
    get_price demoSnapshot (some (-3)) "USD" "EUR" = PriceResult.nonPositiveAmount ∧
    get_price demoSnapshot (some 5) "USD" "USD" = PriceResult.sameCurrency :=
  ⟨(c5_conversion_validation demoSnapshot none "USD" "EUR").1.mpr rfl,
   ((c5_conversion_validation demoSnapshot (some (-3)) "USD" "EUR").2.1
      (-3) rfl).mpr (by norm_num),
   ((c5_conversion_validation demoSnapshot (some 5) "USD" "USD").2.2
      5 usdRecord usdRecord rfl (by norm_num) (by decide) (by decide)).mpr rfl⟩

/-- The ratio-and-round computation of `get_price` at the spec's test data:
`round(90 / 100 * 10, 2) = 9`. -/
theorem pyRound2_test_case : pyRound2 ((90 : ℚ) / 100 * 10) = 9 := by
  norm_num [pyRound2, ratFloor]

/-- C6: every successful conversion returns
`round(targetRate / sourceRate * amount, 2)` (ties to even, the mode of
Python's `round`); in particular with target rate 90, source rate 100 and
amount 10 the result is exactly 9. -/
theorem c6_rounding_law :
    (∀ (recs : List CurrencyRecord) (amount : ℚ) (base quote : String)
        (v : ℚ) (b q : CurrencyRecord),
      get_price recs (some amount) base quote = PriceResult.ok v b q →
      v = pyRound2 (b.rub_rate / q.rub_rate * amount)) ∧
    get_price demoSnapshot (some 10) "Доллар США" "Euro" =
      PriceResult.ok 9 usdRecord eurRecord := by
  constructor
  · intro recs amount base quote v b q h
    simp only [get_price] at h
    split at h
    · exact PriceResult.noConfusion h
    · split at h
      · exact PriceResult.noConfusion h
      · exact PriceResult.noConfusion h
      · split at h
        · exact PriceResult.noConfusion h
        · exact PriceResult.noConfusion h
        · split at h
          · exact PriceResult.noConfusion h
          · simp only [PriceResult.ok.injEq] at h
            obtain ⟨h1, rfl, rfl⟩ := h
            exact h1.symm
  · have hbase : get_currency_data demoSnapshot "Доллар США" =
        ResolveResult.found usdRecord := by decide
    have hquote : get_currency_data demoSnapshot "Euro" =
        ResolveResult.found eurRecord := by decide
    have hpos : ¬ (10 : ℚ) ≤ 0 := by norm_num
    simp only [get_price, hbase, hquote, if_neg hpos]
    have hcode : usdRecord.code ≠ eurRecord.code := by decide
    rw [if_neg hcode]
    have : usdRecord.rub_rate / eurRecord.rub_rate * 10 = (90 : ℚ) / 100 * 10 := rfl
    rw [this, pyRound2_test_case]

/-- Witness for C6: the general ratio-and-round law applied at the concrete
conversion of 10 dollars (rate 90) into euros (rate 100). -/
theorem c6_witness :
    (9 : ℚ) = pyRound2 (usdRecord.rub_rate / eurRecord.rub_rate * 10) :=
  c6_rounding_law.1 demoSnapshot 10 "Доллар США" "Euro" 9 usdRecord eurRecord
    c6_rounding_law.2

/-- A successful `fill` publishes the same record list to both cache fields
and stamps today's date. -/
theorem fill_ok_state (today : String) (v : VocResult) (r : RatesResult)
    (s s1 : StorageState) (h : fill today v r s = (s1, none)) :
    ∃ recs, s1 = ⟨recs, recs, some today⟩ := by
  cases v with
  | fetchFail => simp [fill] at h
  | parseFail => simp [fill] at h
  | ok vocab =>
    cases r with
    | fetchFail => simp [fill] at h
    | parseFail => simp [fill] at h
    | ok items =>
      rcases hm : mergeItems vocab items [] with ⟨merged, flag⟩
      cases flag with
      | true =>
        simp only [fill, hm, Prod.mk.injEq, and_true] at h
        exact ⟨merged ++ [rurRecord], h.symm⟩
      | false => simp [fill, hm] at h

/-- C7: a successful refresh, regardless of feed contents, appends exactly
one synthetic reference-currency record with rate 1 and code `"RUR"` after
all fetched records, so the published snapshot is the merged records plus
that one record, which is the last element. -/
theorem c7_reference_record (today : String)
    (vocab : String → Option (String × String)) (items : List RateItem)
    (s : StorageState) (merged : List CurrencyRecord)
    (h : mergeItems vocab items [] = (merged, true)) :
    fill today (VocResult.ok vocab) (RatesResult.ok items) s =
      (⟨merged ++ [rurRecord], merged ++ [rurRecord], some today⟩, none) ∧
    (merged ++ [rurRecord]).getLast? = some rurRecord ∧
    (merged ++ [rurRecord]).length = merged.length + 1 ∧
    rurRecord.rub_rate = 1 ∧ rurRecord.code = "RUR" := by
  refine ⟨?_, List.getLast?_concat _, by simp, rfl, rfl⟩
  simp only [fill, h]

/-- Witness for C7: refreshing from the one-item demo feed publishes the
merged dollar record followed by the synthetic ruble record. -/
theorem c7_witness :
    fill "12/10/2025" (VocResult.ok demoVocab) (RatesResult.ok demoItems)
        ⟨[], [], none⟩ =
      (⟨[usdRecord] ++ [rurRecord], [usdRecord] ++ [rurRecord],
        some "12/10/2025"⟩, none) ∧
    ([usdRecord] ++ [rurRecord]).getLast? = some rurRecord :=
  ⟨(c7_reference_record "12/10/2025" demoVocab demoItems ⟨[], [], none⟩
      [usdRecord] (by decide)).1,
   (c7_reference_record "12/10/2025" demoVocab demoItems ⟨[], [], none⟩
      [usdRecord] (by decide)).2.1⟩

/-- C8: after a read of `data` that yielded a snapshot, a second read on the
same day returns the same snapshot and the same state without invoking
`fill` — whatever the upstream feeds would now answer. -/
theorem c8_same_day_idempotent (today : String) (v1 v2 : VocResult)
    (r1 r2 : RatesResult) (s s1 : StorageState) (l : List CurrencyRecord)
    (b : Bool) (h : dataOp today v1 r1 s = (DataResult.ok l, s1, b)) :
    dataOp today v2 r2 s1 = (DataResult.ok l, s1, false) := by
  have key : s1.cached_date = some today ∧ s1.read_only = l ∧
      lists_match s1.write_only s1.read_only = true := by
    simp only [dataOp] at h
    split at h
    case isTrue hc =>
      split at h
      case isTrue hm =>
        simp only [Prod.mk.injEq, DataResult.ok.injEq] at h
        obtain ⟨h1, h2, h3⟩ := h
        subst h2
        exact ⟨hc, h1, hm⟩
      case isFalse hm =>
        simp only [Prod.mk.injEq, DataResult.ok.injEq] at h
        obtain ⟨h1, h2, h3⟩ := h
        subst h2
        exact ⟨hc, h1, lists_match_refl _⟩
    case isFalse hc =>
      rcases hf : fill today v1 r1 s with ⟨s2, e⟩
      rw [hf] at h
      cases e with
      | some err => exact absurd (congrArg (fun p => p.1) h) (by simp)
      | none =>
        obtain ⟨recs, rfl⟩ := fill_ok_state today v1 r1 s s2 hf
        simp only [lists_match_refl, if_true, Prod.mk.injEq,
          DataResult.ok.injEq] at h
        obtain ⟨h1, h2, h3⟩ := h
        subst h2
        exact ⟨rfl, h1, lists_match_refl _⟩
  obtain ⟨hc, hl, hm⟩ := key
  have hrun : dataOp today v2 r2 s1 = (DataResult.ok s1.read_only, s1, false) := by
    simp only [dataOp, hc, eq_self_iff_true, if_true, hm]
  rw [hrun, hl]

/-- Witness for C8: a successful first read from the demo feed, followed by a
second read the same day against feeds that would now be unreachable: the
second read returns the same snapshot, leaves the state unchanged, and does
not refresh. -/
theorem c8_witness :
    dataOp "12/10/2025" VocResult.fetchFail RatesResult.fetchFail
        ⟨[usdRecord, rurRecord], [usdRecord, rurRecord], some "12/10/2025"⟩ =
      (DataResult.ok [usdRecord, rurRecord],
        ⟨[usdRecord, rurRecord], [usdRecord, rurRecord], some "12/10/2025"⟩,
        false) :=
  c8_same_day_idempotent "12/10/2025" (VocResult.ok demoVocab)
    VocResult.fetchFail (RatesResult.ok demoItems) RatesResult.fetchFail
    ⟨[], [], none⟩
    ⟨[usdRecord, rurRecord], [usdRecord, rurRecord], some "12/10/2025"⟩
    [usdRecord, rurRecord] true (by decide)

/-- C3 (code behavior at the failing input): the feed `brokenFeedItems`
makes the merge loop die on its second item after the first record was
already appended, `fill` raises `ratesParse` — but `_cached_date` was
already set to today, so the very next same-day read serves the partially
merged one-record snapshot with no error and performs no refresh, whatever
the upstream feeds would answer. -/
theorem c3_stale_flag_serves_merged_stub :
    dataOp "12/10/2025" (VocResult.ok demoVocab)
        (RatesResult.ok brokenFeedItems) ⟨[], [], none⟩ =
      (DataResult.err ApiErr.ratesParse,
        ⟨[usdRecord], [], some "12/10/2025"⟩, true) ∧
    (∀ (v : VocResult) (r : RatesResult),
      dataOp "12/10/2025" v r ⟨[usdRecord], [], some "12/10/2025"⟩ =
        (DataResult.ok [usdRecord],
          ⟨[usdRecord], [usdRecord], some "12/10/2025"⟩, false)) := by
  constructor
  · decide
  · intro v r
    have hm : lists_match [usdRecord] ([] : List CurrencyRecord) = false := by
      decide
    simp [dataOp, hm]

/-- C10: a rates-feed fetch failure during refresh leaves an empty snapshot
with `_cached_date` already set to today; the next same-day read serves that
empty snapshot without refreshing, and on it `resolve` does not return
not-found but hits `lev_distances[0]` on an empty list — the `IndexError`
outcome, outside the application-level error taxonomy. -/
theorem c10_empty_snapshot_index_error :
    (∀ (vocab : String → Option (String × String)) (s : StorageState)
        (today : String),
      fill today (VocResult.ok vocab) RatesResult.fetchFail s =
        (⟨[], [], some today⟩, some ApiErr.ratesFetch)) ∧
    (∀ (v : VocResult) (r : RatesResult) (today : String),
      dataOp today v r ⟨[], [], some today⟩ =
        (DataResult.ok [], ⟨[], [], some today⟩, false)) ∧
    (∀ request, get_currency_data [] request = ResolveResult.indexError) ∧
    (∀ request, get_currency_data [] request ≠ ResolveResult.notFound) := by
  refine ⟨fun vocab s today => rfl, ?_, fun request => rfl, ?_⟩
  · intro v r today
    simp [dataOp, lists_match]
  · intro request h
    rw [show get_currency_data [] request = ResolveResult.indexError from rfl] at h
    exact ResolveResult.noConfusion h

/-! ## Heap lemmas for the ownership claim -/

theorem getD_set_ne (h : Heap) (i : Addr) (rec : CurrencyRecord) (a : Addr)
    (hne : i ≠ a) : (h.set i rec).getD a defaultRec = h.getD a defaultRec := by
  rw [List.getD_eq_getElem?_getD, List.getD_eq_getElem?_getD,
    List.getElem?_set_ne hne]

/-- A sequence of writes at addresses avoiding `a` leaves the cell at `a`
unchanged. -/
theorem getD_mutateHeap (writes : List (Addr × CurrencyRecord)) (h : Heap)
    (a : Addr) (ha : ∀ w ∈ writes, w.1 ≠ a) :
    (mutateHeap h writes).getD a defaultRec = h.getD a defaultRec := by
  induction writes generalizing h with
  | nil => rfl
  | cons w ws ih =>
    rw [show mutateHeap h (w :: ws) = mutateHeap (h.set w.1 w.2) ws from rfl]
    rw [ih (h.set w.1 w.2) (fun w' hw' => ha w' (List.mem_cons_of_mem _ hw'))]
    exact getD_set_ne h w.1 w.2 a (ha w (List.mem_cons_self _ _))

/-- Reading back freshly allocated cells yields the allocated values. -/
theorem contentsAt_alloc (recs : List CurrencyRecord) (h : Heap) :
    contentsAt (h ++ recs) (List.range' h.length recs.length) = recs := by
  induction recs generalizing h with
  | nil => rfl
  | cons x xs ih =>
    have hfst : (h ++ x :: xs).getD h.length defaultRec = x := by
      rw [List.getD_eq_getElem?_getD, List.getElem?_append_right (le_refl _)]
      simp
    have hrest : contentsAt (h ++ x :: xs) (List.range' (h.length + 1) xs.length) = xs := by
      have hsplit : h ++ x :: xs = (h ++ [x]) ++ xs := by simp
      have hlen : h.length + 1 = (h ++ [x]).length := by simp
      rw [hsplit, hlen]
      exact ih (h ++ [x])
    simp only [contentsAt, List.length_cons, List.range'_succ, List.map_cons]
    rw [hfst]
    simp only [contentsAt] at hrest
    rw [hrest]

/-- Cells below the old length are unaffected by an allocation. -/
theorem getD_append_left (h : Heap) (l : List CurrencyRecord) (a : Addr)
    (ha : a < h.length) : (h ++ l).getD a defaultRec = h.getD a defaultRec := by
  rw [List.getD_eq_getElem?_getD, List.getD_eq_getElem?_getD,
    List.getElem?_append_left ha]

/-- The served snapshot reads back as the contents of the internally owned
`_data_write_only` cells at serve time. -/
theorem hServe_contents (s : HeapStorage) (h : Heap) :
    contentsAt (hServe s h).2.2 (hServe s h).1 = contentsAt h s.write_only := by
  simp only [hServe]
  split
  case isTrue hm => exact ((lists_match_iff _ _).mp hm).symm
  case isFalse hm =>
    simp only [deepcopyAddrs, allocRecords]
    exact contentsAt_alloc (contentsAt h s.write_only) h

/-- The serve step preserves the owned cells and the date, never hands out
owned addresses, and maintains well-formedness. -/
theorem hServe_spec (s : HeapStorage) (h : Heap) (hwf : heapWF s h) :
    ∃ ret s1 h1, hServe s h = (ret, s1, h1) ∧
      s1.write_only = s.write_only ∧
      s1.cached_date = s.cached_date ∧
      List.Disjoint s1.write_only ret ∧
      heapWF s1 h1 ∧
      (∀ a ∈ s1.write_only, h1.getD a defaultRec = h.getD a defaultRec) := by
  obtain ⟨hval, hdisj⟩ := hwf
  by_cases hm : lists_match (contentsAt h s.write_only) (contentsAt h s.read_only) = true
  · exact ⟨s.read_only, s, h, by simp [hServe, hm], rfl, rfl, hdisj,
      ⟨hval, hdisj⟩, fun a _ => rfl⟩
  · refine ⟨List.range' h.length (contentsAt h s.write_only).length,
      { s with read_only :=
          List.range' h.length (contentsAt h s.write_only).length },
      h ++ contentsAt h s.write_only, ?_, rfl, rfl, ?_, ⟨?_, ?_⟩, ?_⟩
    · simp [hServe, hm, deepcopyAddrs, allocRecords]
    · intro a ha hb
      rw [List.mem_range'_1] at hb
      exact absurd (hval a ha) (not_lt.mpr hb.1)
    · intro a ha
      have hlt := hval a ha
      simp only [List.length_append]
      exact Nat.lt_of_lt_of_le hlt (Nat.le_add_right _ _)
    · intro a ha hb
      rw [List.mem_range'_1] at hb
      exact absurd (hval a ha) (not_lt.mpr hb.1)
    · intro a ha
      exact getD_append_left h _ a (hval a ha)

/-- Unfolding of `hFill`: owned cells are the first fresh range, the read
view the second, over the twice-grown heap. -/
theorem hFill_eq (today : String) (recs : List CurrencyRecord) (h : Heap) :
    hFill today recs h =
      (⟨List.range' h.length recs.length,
        List.range' (h ++ recs).length
          (contentsAt (h ++ recs) (List.range' h.length recs.length)).length,
        some today⟩,
       (h ++ recs) ++ contentsAt (h ++ recs) (List.range' h.length recs.length)) :=
  rfl

/-- A fresh heap-level refresh produces a well-formed dated state. -/
theorem hFill_wf (today : String) (recs : List CurrencyRecord) (h : Heap) :
    ∃ sf hf, hFill today recs h = (sf, hf) ∧ heapWF sf hf ∧
      sf.cached_date = some today := by
  refine ⟨_, _, hFill_eq today recs h, ⟨?_, ?_⟩, rfl⟩
  · intro a ha
    have ha' : a ∈ List.range' h.length recs.length := ha
    rw [List.mem_range'_1] at ha'
    show a < ((h ++ recs) ++ contentsAt (h ++ recs)
      (List.range' h.length recs.length)).length
    simp only [List.length_append]
    exact Nat.lt_of_lt_of_le ha'.2 (Nat.le_add_right _ _)
  · intro a ha hb
    have ha' : a ∈ List.range' h.length recs.length := ha
    have hb' : a ∈ List.range' (h ++ recs).length
        (contentsAt (h ++ recs) (List.range' h.length recs.length)).length := hb
    rw [List.mem_range'_1] at ha' hb'
    simp only [List.length_append] at hb'
    exact absurd ha'.2 (not_lt.mpr hb'.1)

/-- Every `data` read yields a dated state whose published addresses are
disjoint from the internally owned ones. -/
theorem hDataOp_spec (today : String) (recs : List CurrencyRecord)
    (s : HeapStorage) (h : Heap) (hwf : heapWF s h) :
    ∃ ret s1 h1, hDataOp today recs s h = (ret, s1, h1) ∧
      s1.cached_date = some today ∧
      List.Disjoint s1.write_only ret ∧
      heapWF s1 h1 := by
  by_cases hc : s.cached_date = some today
  · obtain ⟨ret, s1, h1, heq, hwo, hcd, hdisj, hwf1, hcont⟩ := hServe_spec s h hwf
    exact ⟨ret, s1, h1, by simp [hDataOp, hc, heq], by rw [hcd, hc], hdisj, hwf1⟩
  · obtain ⟨sf, hf, hfeq, hwff, hcf⟩ := hFill_wf today recs h
    obtain ⟨ret, s1, h1, heq, hwo, hcd, hdisj, hwf1, hcont⟩ := hServe_spec sf hf hwff
    refine ⟨ret, s1, h1, ?_, by rw [hcd, hcf], hdisj, hwf1⟩
    simp [hDataOp, hc, hfeq, heq]

/-- C9: callers receive a deep copy of the cached records: a `data` read on a
well-formed storage hands out addresses disjoint from the internally owned
`_data_write_only` cells, so no sequence of record overwrites a caller
performs on the returned snapshot changes the internally owned record data,
and a subsequent same-day read still observes exactly that data. -/
theorem c9_snapshot_isolation (today : String) (recs : List CurrencyRecord)
    (s : HeapStorage) (h : Heap) (ret : List Addr) (s1 : HeapStorage)
    (h1 : Heap) (writes : List (Addr × CurrencyRecord))
    (hwf : heapWF s h)
    (hrun : hDataOp today recs s h = (ret, s1, h1))
    (hw : ∀ w ∈ writes, w.1 ∈ ret) :
    contentsAt (mutateHeap h1 writes) s1.write_only =
      contentsAt h1 s1.write_only ∧
    (∀ ret2 s2 h2,
      hDataOp today recs s1 (mutateHeap h1 writes) = (ret2, s2, h2) →
      contentsAt h2 ret2 = contentsAt h1 s1.write_only) := by
  obtain ⟨ret', s1', h1', hrun', hcache, hdisj, hwf1⟩ :=
    hDataOp_spec today recs s h hwf
  rw [hrun] at hrun'
  obtain ⟨rfl, rfl, rfl⟩ : ret = ret' ∧ s1 = s1' ∧ h1 = h1' := by
    have h1eq := congrArg (fun p => p.1) hrun'
    have h2eq := congrArg (fun p => p.2.1) hrun'
    have h3eq := congrArg (fun p => p.2.2) hrun'
    exact ⟨h1eq, h2eq, h3eq⟩
  have hframe : ∀ a ∈ s1.write_only,
      (mutateHeap h1 writes).getD a defaultRec = h1.getD a defaultRec := by
    intro a ha
    refine getD_mutateHeap writes h1 a (fun w hw' heqa => ?_)
    exact hdisj ha (heqa ▸ hw w hw')
  have hmain : contentsAt (mutateHeap h1 writes) s1.write_only =
      contentsAt h1 s1.write_only := List.map_congr_left hframe
  refine ⟨hmain, ?_⟩
  intro ret2 s2 h2 hrun2
  have hstep : hDataOp today recs s1 (mutateHeap h1 writes) =
      hServe s1 (mutateHeap h1 writes) := by
    simp [hDataOp, hcache]
  rw [hstep] at hrun2
  have hcont := hServe_contents s1 (mutateHeap h1 writes)
  rw [hrun2] at hcont
  rw [hcont, hmain]

/-- Witness for C9: reading a one-record cache hands out address 1 (the deep
copy) while the storage owns address 0; overwriting the returned cell with
the euro record leaves the owned dollar record intact. -/
theorem c9_witness :
    contentsAt (mutateHeap [usdRecord, usdRecord] [(1, eurRecord)]) [0] =
      contentsAt [usdRecord, usdRecord] [0] :=
  (c9_snapshot_isolation "12/10/2025" [usdRecord] ⟨[], [], none⟩ [] [1]
    ⟨[0], [1], some "12/10/2025"⟩ [usdRecord, usdRecord] [(1, eurRecord)]
    ⟨by simp, by simp [List.Disjoint]⟩ (by decide) (by decide)).1

end CurrencyBot
